import Mathlib

/-!
Verification of the AI-Human-Listing-Tool core against its specification.

The development shallowly embeds the decision-execution loop (`browser_engine.py`)
and the model-invocation / parsing layer (`llm_engine.py`) as executable Lean
functions.  Strings are handled as `List Char` with `String` wrappers; Python
whitespace / regex behaviour is modelled character by character; randomized
delays are recorded as events carrying their bounds in tenths of a time unit.
-/

namespace ListingTool

/-! ## Python string primitives -/

/-- Whitespace characters recognized by Python `str.strip` and by the regex
class backslash-s, restricted to the ASCII range the repository's inputs use. -/
def isPySpace (c : Char) : Bool :=
  c == ' ' || c == '\t' || c == '\n' || c == '\r' || c == '\x0b' || c == '\x0c'

/-- The backtick character delimiting fenced code blocks. -/
def backquoteChar : Char := Char.ofNat 96

/-- The single-quote character stripped from title values. -/
def singleQuoteChar : Char := Char.ofNat 39

/-- Python `str.strip()` over a character list: drop leading whitespace, then
trailing whitespace. -/
def stripList (cs : List Char) : List Char :=
  (cs.dropWhile isPySpace).rdropWhile isPySpace

/-- Python `str.strip()`. -/
def pystrip (s : String) : String := String.mk (stripList s.toList)

/-- Whether the list begins with the given character (Python `str.startswith` on
a one-character needle). -/
def headIs (cs : List Char) (c : Char) : Bool :=
  match cs with
  | [] => false
  | a :: _ => a == c

/-- Index of the first element satisfying the predicate. -/
def firstIdxWhere (p : Char → Bool) : List Char → Option Nat
  | [] => none
  | c :: rest => if p c then some 0 else (firstIdxWhere p rest).map (· + 1)

/-- Python `str.find` for a single character: index of the first occurrence. -/
def pyFindChar (cs : List Char) (c : Char) : Option Nat :=
  firstIdxWhere (· == c) cs

/-- Python `str.rfind` for a single character: index of the last occurrence. -/
def pyRfindChar (cs : List Char) (c : Char) : Option Nat :=
  match firstIdxWhere (· == c) cs.reverse with
  | none => none
  | some i => some (cs.length - 1 - i)

/-- Whether `lit` is literally at the head of `cs`. -/
def startsLit : List Char → List Char → Bool
  | [], _ => true
  | _ :: _, [] => false
  | l :: ls, c :: cs => c == l && startsLit ls cs

/-- Match the literal `lit` at the head of `cs`, returning the rest. -/
def takeLit : List Char → List Char → Option (List Char)
  | [], cs => some cs
  | _ :: _, [] => none
  | l :: ls, c :: cs => if c == l then takeLit ls cs else none

/-- Case-insensitive literal match (the literal is given in lowercase),
returning the rest of the input. -/
def takeLitCI : List Char → List Char → Option (List Char)
  | [], cs => some cs
  | _ :: _, [] => none
  | l :: ls, c :: cs => if c.toLower == l then takeLitCI ls cs else none

/-- Python substring containment (`needle in hay`). -/
def containsSub (needle : List Char) : List Char → Bool
  | [] => startsLit needle []
  | c :: t => startsLit needle (c :: t) || containsSub needle t

/-! ## ResponsePayloadExtractor — `GeminiLLMEngine._extract_json_payload`

The second extraction stage of the source is the regex search
for a fenced code block, pattern (re.DOTALL):
three backticks, an optional literal "json", any whitespace, a group that is a
brace-delimited or bracket-delimited span (greedy dot-star), any whitespace,
three backticks.  `fencedSearch` reproduces the search: leftmost match start;
the alternation tries the brace branch before the bracket branch (each is
committed by its opening character); the greedy dot-star takes the largest
group end whose tail still matches. -/

/-- Whether, after skipping whitespace, the input continues with three backticks
(the tail required after the regex group). -/
def fencedTailOk (cs : List Char) : Bool :=
  startsLit [backquoteChar, backquoteChar, backquoteChar] (cs.dropWhile isPySpace)

/-- Largest index `j < n` of `r` holding `closer` such that the rest of the
pattern (whitespace then three backticks) matches after it.  Indices are tried
from the top down, mirroring the greedy dot-star of the regex. -/
def groupEndSearch (r : List Char) (closer : Char) : Nat → Option Nat
  | 0 => none
  | j + 1 =>
    if r.get? j == some closer && fencedTailOk (r.drop (j + 1)) then some j
    else groupEndSearch r closer j

/-- Attempt the fenced-block pattern with the match anchored at the head of `cs`;
returns the regex group (the brace- or bracket-delimited span). -/
def fencedAttempt (cs : List Char) : Option (List Char) :=
  match takeLit [backquoteChar, backquoteChar, backquoteChar] cs with
  | none => none
  | some r0 =>
    let r1 := match takeLit ['j', 's', 'o', 'n'] r0 with
      | some r => r
      | none => r0
    let r2 := r1.dropWhile isPySpace
    match r2 with
    | [] => none
    | c :: _ =>
      if c == '{' then
        match groupEndSearch r2 '}' r2.length with
        | some j => some (r2.take (j + 1))
        | none => none
      else if c == '[' then
        match groupEndSearch r2 ']' r2.length with
        | some j => some (r2.take (j + 1))
        | none => none
      else none

/-- The regex search: try the fenced-block pattern at every position, leftmost
match wins. -/
def fencedSearch : List Char → Option (List Char)
  | [] => none
  | c :: rest =>
    match fencedAttempt (c :: rest) with
    | some g => some g
    | none => fencedSearch rest

/-- The first stage of the third extraction strategy: the minimum of the `find`
indices of the two openers, ignoring misses (the source's
min-over-non-negative-finds with default -1). -/
def firstOpener (cs : List Char) : Option Nat :=
  match pyFindChar cs '{', pyFindChar cs '[' with
  | none, none => none
  | some i, none => some i
  | none, some j => some j
  | some i, some j => some (min i j)

/-- The second stage: the maximum of the `rfind` indices of the two closers
(the source's `max(end_obj, end_arr)` over -1-for-miss values). -/
def lastCloser (cs : List Char) : Option Nat :=
  match pyRfindChar cs '}', pyRfindChar cs ']' with
  | none, none => none
  | some i, none => some i
  | none, some j => some j
  | some i, some j => some (max i j)

/-- Embeds `GeminiLLMEngine._extract_json_payload`: strip the text; return it if it
already starts with an opener; else return the (stripped) fenced-block group if
the regex matches; else slice from the first opener through the last closer
(either kind); else return the stripped text. -/
def extract_json_payload (text : String) : String :=
  let stripped := stripList text.toList
  if headIs stripped '{' || headIs stripped '[' then String.mk stripped
  else
    match fencedSearch stripped with
    | some g => String.mk (stripList g)
    | none =>
      match firstOpener stripped with
      | none => String.mk stripped
      | some start =>
        let candidate := stripped.drop start
        match lastCloser candidate with
        | some e => String.mk (candidate.take (e + 1))
        | none => String.mk candidate

/-! ## ActionExecutor — `BrowserEngine._execute_action`

Randomized delays are recorded as `sleep lo hi` events with the bounds of
`random_delay` in tenths of a time unit (so `random_delay(0.8, 1.6)` is
`sleep 8 16`).  Surface interactions become events; the four-strategy locator
chain is `resolveChain`, recorded as a single `resolve` event carrying its
outcome. -/

/-- One action dict of an ActionDecision.  `none` models an absent key; the
dict's `confidence` and `reason` entries are never read by the executor and are
not modelled. -/
structure ActionItem where
  action : Option String
  target : Option String
  value : Option String
  deriving DecidableEq

/-- The queried surface: how many elements each locator strategy of the chain
finds for a given target string (`locator.count()` per strategy). -/
structure Page where
  labelCount : String → Nat
  placeholderCount : String → Nat
  buttonCount : String → Nat
  textCount : String → Nat

/-- The four locator strategies of the semantic targeting chain, in source order. -/
inductive Strategy where
  | label
  | placeholder
  | buttonRole
  | textContent
  deriving DecidableEq

/-- The semantic targeting chain: `get_by_label`, then `get_by_placeholder`,
then `get_by_role("button", ...)`, then `get_by_text`; the first strategy whose
locator count is nonzero wins. -/
def resolveChain (page : Page) (target : String) : Option Strategy :=
  if page.labelCount target ≠ 0 then some .label
  else if page.placeholderCount target ≠ 0 then some .placeholder
  else if page.buttonCount target ≠ 0 then some .buttonRole
  else if page.textCount target ≠ 0 then some .textContent
  else none

/-- Observable steps of one action execution.  Delay and scroll magnitudes are
the randomization bounds (delays in tenths of a time unit). -/
inductive ExecEvent where
  | sleep (lo hi : Nat)
  | wheel (lo hi : Nat)
  | resolve (target : String) (found : Bool)
  | warn (target action : String)
  | hoverEv
  | clickEv
  | typeChar (c : Char)
  | pressKey (key : String)
  | uploadFile (path : String)
  deriving DecidableEq

/-- Whether the event is a key signal sent to the keyboard. -/
def ExecEvent.isKeySignal : ExecEvent → Bool
  | .pressKey _ => true
  | _ => false

/-- Embeds `BrowserEngine.natural_scroll` with the default four steps: each step is a
wheel movement of 200 to 650 units followed by a 0.4 to 1.2 unit pause. -/
def naturalScrollEvents : List ExecEvent :=
  (List.replicate 4 [ExecEvent.wheel 200 650, ExecEvent.sleep 4 12]).flatten

/-- Embeds `BrowserEngine._execute_action`: returns (terminal, events).  Missing dict
keys default via `.get` (`action` to "wait", `target` and `value` to "").
`done` is terminal with no interaction; `wait` sleeps 1 to 3 units; `scroll`
scrolls naturally; every other kind first runs the locator chain — an
unresolved target logs a warning, sleeps 0.8 to 1.6 units and returns
non-terminal — and then dispatches on the kind (`press` uses the keyboard with
`value or "Enter"`; an unrecognized kind with a resolved target falls through
all branches and just returns non-terminal). -/
def execute_action (page : Page) (item : ActionItem) : Bool × List ExecEvent :=
  let action_type := item.action.getD "wait"
  let target := item.target.getD ""
  let value := item.value.getD ""
  if action_type = "done" then (true, [])
  else if action_type = "wait" then (false, [.sleep 10 30])
  else if action_type = "scroll" then (false, naturalScrollEvents)
  else
    match resolveChain page target with
    | none => (false, [.resolve target false, .warn target action_type, .sleep 8 16])
    | some _ =>
      let evs :=
        if action_type = "click" then [ExecEvent.hoverEv, .sleep 1 5, .clickEv, .sleep 5 25]
        else if action_type = "hover" then [ExecEvent.hoverEv, .sleep 5 25]
        else if action_type = "type" then
          ExecEvent.clickEv :: value.toList.map .typeChar ++ [.sleep 5 25]
        else if action_type = "press" then
          [ExecEvent.pressKey (if value = "" then "Enter" else value), .sleep 5 25]
        else if action_type = "upload" then [ExecEvent.uploadFile value, .sleep 12 26]
        else []
      (false, .resolve target true :: evs)

/-! ## ExecutionLoop — `BrowserEngine.execute_llm_actions`

The per-cycle decision is abstracted as a function from the cycle index to the
`actions` / `risk` entries the loop reads off the decision dict (with their
`.get` defaults already applied); the claims quantify over such decision
sequences.  The loop trace records the screenshot of each cycle, the extended
manual-intervention wait, and each dispatched action. -/

/-- The `actions` and `risk` entries the loop reads from one decision dict. -/
structure Decision where
  actions : List ActionItem
  risk : String

/-- The risk gate of the loop: `risk in {"captcha", "2fa"}` (the spec's
`two_factor` value is spelled "2fa" in the decision schema). -/
def riskNeedsWait (risk : String) : Bool :=
  risk == "captcha" || risk == "2fa"

/-- Observable steps of the loop. -/
inductive LoopEvent where
  | snapshot (cycle : Nat)
  | riskWait (cycle : Nat) (lo hi : Nat)
  | dispatch (cycle : Nat) (idx : Nat) (item : ActionItem)
  deriving DecidableEq

/-- The cycle an event belongs to. -/
def LoopEvent.cycle : LoopEvent → Nat
  | .snapshot c => c
  | .riskWait c _ _ => c
  | .dispatch c _ _ => c

/-- Whether the event is a cycle snapshot (one per executed cycle). -/
def LoopEvent.isSnapshot : LoopEvent → Bool
  | .snapshot _ => true
  | _ => false

/-- The loop's outcome: plain return, or the final RuntimeError
("LLM action loop exhausted before completion"), the spec's
ActionBudgetExhausted. -/
inductive LoopResult where
  | success
  | budgetExhausted
  deriving DecidableEq

/-- The inner dispatch loop of one cycle: execute each action in order and stop
at the first terminal result. -/
def dispatchActions (page : Page) (cycle : Nat) : Nat → List ActionItem → List LoopEvent × Bool
  | _, [] => ([], false)
  | i, a :: rest =>
    if (execute_action page a).1 then ([.dispatch cycle i a], true)
    else
      let r := dispatchActions page cycle (i + 1) rest
      (.dispatch cycle i a :: r.1, r.2)

/-- The events a cycle emits before dispatching: its screenshot, and the
extended 8 to 12 unit manual-intervention wait when the decision is risky. -/
def preEvents (c : Nat) (risky : Bool) : List LoopEvent :=
  LoopEvent.snapshot c :: (if risky then [LoopEvent.riskWait c 80 120] else [])

/-- The cycle loop from cycle `c` with `n` cycles of budget left: screenshot,
decision, extended wait on a risky decision, dispatch with early exit, return
on a terminal action, budget exhaustion after the last cycle. -/
def runCycles (page : Page) (decisions : Nat → Decision) : Nat → Nat → LoopResult × List LoopEvent
  | _, 0 => (.budgetExhausted, [])
  | c, n + 1 =>
    let d := decisions c
    let pre := preEvents c (riskNeedsWait d.risk)
    let step := dispatchActions page c 0 d.actions
    if step.2 then (.success, pre ++ step.1)
    else
      let rest := runCycles page decisions (c + 1) n
      (rest.1, pre ++ step.1 ++ rest.2)

/-- Embeds `BrowserEngine.execute_llm_actions`: run up to `max_cycles` cycles from
cycle 0. -/
def execute_llm_actions (page : Page) (decisions : Nat → Decision)
    (max_cycles : Nat) : LoopResult × List LoopEvent :=
  runCycles page decisions 0 max_cycles

/-- Whether some dispatched execution of this decision's actions would report
terminal (equivalently, whether the list contains a `done` item). -/
def cycleTerminal (page : Page) (d : Decision) : Bool :=
  d.actions.any fun a => (execute_action page a).1

/-! ## ModelInvoker — `GeminiLLMEngine._generate` and the model switch -/

/-- Environment for the model-invocation layer: the outcomes of the external
Gemini API.  `generateResult name` is the text `generate_content` produces for
model `name` — already `response.text or ""` — with `none` modelling a raised
exception; `discovered` is what `genai.list_models` filtering yields (in order,
possibly with duplicates; the empty list also covers a listing failure);
`ctorOk name` is whether `genai.GenerativeModel(model_name=name)` succeeds. -/
structure GeminiEnv where
  generateResult : String → Option String
  discovered : List String
  ctorOk : String → Bool

/-- The ordered list of known-good model identifiers (`MODEL_CANDIDATES`). -/
def MODEL_CANDIDATES : List String :=
  ["gemini-2.5-flash", "gemini-2.5-flash-lite", "gemini-2.0-flash-exp",
   "gemini-1.5-flash-latest", "gemini-1.5-pro-latest"]

/-- Embeds `GeminiLLMEngine._discover_supported_models`: the discovered identifiers,
deduplicated keeping first occurrences (`dict.fromkeys`). -/
def discover_supported_models (env : GeminiEnv) : List String :=
  env.discovered.eraseDups

/-- The candidate order of `_try_switch_to_supported_model`: known-good
candidates that were discovered (in their listed order), then the other
discovered identifiers, both excluding the currently active one. -/
def orderedCandidates (env : GeminiEnv) (active : String) : List String :=
  let available := discover_supported_models env
  let ordered := MODEL_CANDIDATES.filter fun c => available.contains c && c != active
  ordered ++ available.filter fun n => !ordered.contains n && n != active

/-- The switch loop: set the active identifier to each candidate in turn and
try to construct the model; stop at the first construction that succeeds.  The
active identifier is updated before the construction attempt, so a failed
attempt still leaves it on that candidate. -/
def switchLoop (env : GeminiEnv) : List String → String → Bool × String
  | [], active => (false, active)
  | cand :: rest, _ => if env.ctorOk cand then (true, cand) else switchLoop env rest cand

/-- Embeds `GeminiLLMEngine._try_switch_to_supported_model`. -/
def try_switch_to_supported_model (env : GeminiEnv) (active : String) : Bool × String :=
  switchLoop env (orderedCandidates env active) active

/-- Outcome of `_generate`: returned text, or the RuntimeError the source
raises (the spec's ModelUnavailable). -/
inductive GenOutcome where
  | ok (text : String)
  | modelUnavailable
  deriving DecidableEq

/-- Embeds `GeminiLLMEngine._generate`: (outcome, final active identifier, number of
`generate_content` requests issued).  Primary request first; on failure switch
to a discovered model and retry exactly once; with no switch available or a
failed retry, raise. -/
def generate (env : GeminiEnv) (active : String) : GenOutcome × String × Nat :=
  match env.generateResult active with
  | some t => (.ok (pystrip t), active, 1)
  | none =>
    let sw := try_switch_to_supported_model env active
    if sw.1 then
      match env.generateResult sw.2 with
      | some t => (.ok (pystrip t), sw.2, 2)
      | none => (.modelUnavailable, sw.2, 2)
    else (.modelUnavailable, sw.2, 1)

/-! ## JSON parsing — the `json.loads` step of the decision path

A strict-JSON recursive-descent parser over characters, total by fuel.
Numbers are kept exactly as mantissa times a power of ten; object fields are
kept as an ordered list (duplicate keys retain textual order, lookups take the
last occurrence, matching the last-wins dict construction); the non-standard
NaN and Infinity literals are outside the model. -/

/-- Parsed JSON values. -/
inductive Json where
  | jnull
  | jbool (b : Bool)
  | jnum (mantissa : Int) (exp10 : Int)
  | jstr (s : String)
  | jarr (elems : List Json)
  | jobj (fields : List (String × Json))

/-- JSON interelement whitespace (space, tab, newline, carriage return). -/
def isJsonWs (c : Char) : Bool :=
  c == ' ' || c == '\t' || c == '\n' || c == '\r'

/-- Value of a decimal digit character. -/
def digitVal (c : Char) : Nat := c.toNat - '0'.toNat

/-- Numeric value of a digit string. -/
def digitsVal (ds : List Char) : Nat :=
  ds.foldl (fun acc c => acc * 10 + digitVal c) 0

/-- Value of a hexadecimal digit character. -/
def hexVal (c : Char) : Nat :=
  if c.isDigit then c.toNat - '0'.toNat
  else if 'a' ≤ c ∧ c ≤ 'f' then c.toNat - 'a'.toNat + 10
  else c.toNat - 'A'.toNat + 10

/-- Whether the character is a hexadecimal digit. -/
def isHexDigit (c : Char) : Bool :=
  c.isDigit || ('a' ≤ c && c ≤ 'f') || ('A' ≤ c && c ≤ 'F')

/-- Parse the body of a JSON string literal (the opening quote already
consumed): contents and rest after the closing quote.  Control characters are
rejected, the standard escapes and 4-hex-digit unicode escapes are decoded. -/
def parseStringBody : Nat → List Char → Option (List Char × List Char)
  | 0, _ => none
  | _ + 1, [] => none
  | _ + 1, '"' :: rest => some ([], rest)
  | fuel + 1, '\\' :: esc :: rest =>
    if esc == '"' || esc == '\\' || esc == '/' then
      (parseStringBody fuel rest).map fun r => (esc :: r.1, r.2)
    else if esc == 'b' then
      (parseStringBody fuel rest).map fun r => ('\x08' :: r.1, r.2)
    else if esc == 'f' then
      (parseStringBody fuel rest).map fun r => ('\x0c' :: r.1, r.2)
    else if esc == 'n' then
      (parseStringBody fuel rest).map fun r => ('\n' :: r.1, r.2)
    else if esc == 'r' then
      (parseStringBody fuel rest).map fun r => ('\r' :: r.1, r.2)
    else if esc == 't' then
      (parseStringBody fuel rest).map fun r => ('\t' :: r.1, r.2)
    else if esc == 'u' then
      match rest with
      | h1 :: h2 :: h3 :: h4 :: rest4 =>
        if isHexDigit h1 && isHexDigit h2 && isHexDigit h3 && isHexDigit h4 then
          let code := ((hexVal h1 * 16 + hexVal h2) * 16 + hexVal h3) * 16 + hexVal h4
          (parseStringBody fuel rest4).map fun r => (Char.ofNat code :: r.1, r.2)
        else none
      | _ => none
    else none
  | fuel + 1, c :: rest =>
    if c.toNat < 32 then none
    else (parseStringBody fuel rest).map fun r => (c :: r.1, r.2)

/-- Parse a JSON number at the head of the input: the value as mantissa and
power of ten, and the rest. -/
def parseNumber (cs : List Char) : Option (Json × List Char) :=
  let (neg, r0) := match cs with
    | '-' :: r => (true, r)
    | _ => (false, cs)
  let intDigits := r0.takeWhile Char.isDigit
  if intDigits.isEmpty then none
  else if intDigits.length > 1 && headIs intDigits '0' then none
  else
    let r1 := r0.drop intDigits.length
    let (fracDigits, r2) := match r1 with
      | '.' :: rf =>
        let f := rf.takeWhile Char.isDigit
        (f, rf.drop f.length)
      | _ => ([], r1)
    if headIs r1 '.' && fracDigits.isEmpty then none
    else
      let mantNat := digitsVal (intDigits ++ fracDigits)
      let mant : Int := if neg then -(mantNat : Int) else (mantNat : Int)
      match r2 with
      | e :: r3 =>
        if e == 'e' || e == 'E' then
          let (eneg, r4) := match r3 with
            | '-' :: r => (true, r)
            | '+' :: r => (false, r)
            | _ => (false, r3)
          let expDigits := r4.takeWhile Char.isDigit
          if expDigits.isEmpty then none
          else
            let ev : Int := if eneg then -(digitsVal expDigits : Int) else (digitsVal expDigits : Int)
            some (.jnum mant (ev - fracDigits.length), r4.drop expDigits.length)
        else some (.jnum mant (-(fracDigits.length : Int)), r2)
      | [] => some (.jnum mant (-(fracDigits.length : Int)), r2)

mutual

/-- Parse one JSON value after skipping leading whitespace. -/
def parseValue : Nat → List Char → Option (Json × List Char)
  | 0, _ => none
  | fuel + 1, cs =>
    match cs.dropWhile isJsonWs with
    | [] => none
    | c :: rest =>
      if c == '{' then
        match (rest.dropWhile isJsonWs) with
        | '}' :: r => some (.jobj [], r)
        | _ => parseMembers fuel rest []
      else if c == '[' then
        match (rest.dropWhile isJsonWs) with
        | ']' :: r => some (.jarr [], r)
        | _ => parseElems fuel rest []
      else if c == '"' then
        (parseStringBody (rest.length + 1) rest).map fun r => (.jstr (String.mk r.1), r.2)
      else if c == 't' then
        (takeLit ['r', 'u', 'e'] rest).map fun r => (.jbool true, r)
      else if c == 'f' then
        (takeLit ['a', 'l', 's', 'e'] rest).map fun r => (.jbool false, r)
      else if c == 'n' then
        (takeLit ['u', 'l', 'l'] rest).map fun r => (.jnull, r)
      else parseNumber (c :: rest)

/-- Parse the remaining elements of a nonempty array (after '[' or ','). -/
def parseElems : Nat → List Char → List Json → Option (Json × List Char)
  | 0, _, _ => none
  | fuel + 1, cs, acc =>
    match parseValue fuel cs with
    | none => none
    | some (v, rest) =>
      match rest.dropWhile isJsonWs with
      | ',' :: r => parseElems fuel r (acc ++ [v])
      | ']' :: r => some (.jarr (acc ++ [v]), r)
      | _ => none

/-- Parse the remaining members of a nonempty object (after '{' or ','). -/
def parseMembers : Nat → List Char → List (String × Json) → Option (Json × List Char)
  | 0, _, _ => none
  | fuel + 1, cs, acc =>
    match cs.dropWhile isJsonWs with
    | '"' :: r0 =>
      match parseStringBody (r0.length + 1) r0 with
      | none => none
      | some (key, r1) =>
        match r1.dropWhile isJsonWs with
        | ':' :: r2 =>
          match parseValue fuel r2 with
          | none => none
          | some (v, rest) =>
            match rest.dropWhile isJsonWs with
            | ',' :: r => parseMembers fuel r (acc ++ [(String.mk key, v)])
            | '}' :: r => some (.jobj (acc ++ [(String.mk key, v)]), r)
            | _ => none
        | _ => none
    | _ => none

end

/-- Embeds `json.loads`: parse the whole string as a single JSON value with only
whitespace around it, or fail (a JSONDecodeError). -/
def Json.parse (s : String) : Option Json :=
  let cs := s.toList
  match parseValue (cs.length + 1) cs with
  | some (v, rest) => if (rest.dropWhile isJsonWs).isEmpty then some v else none
  | none => none

/-! ## ExecutionLoop decision step — `GeminiLLMEngine.analyze_screen_with_llm` -/

/-- The safe default decision the source substitutes on a failure: a single
`wait` action with risk `error`. -/
def fallbackDecision : Json :=
  .jobj [("actions", .jarr [.jobj
            [("action", .jstr "wait"),
             ("target", .jstr "page"),
             ("value", .jstr "2"),
             ("confidence", .jnum 3 (-1)),
             ("reason", .jstr "Fallback due to LLM/API parsing failure")]]),
         ("screen_state", .jstr "Unknown"),
         ("risk", .jstr "error")]

/-- Embeds `GeminiLLMEngine.analyze_screen_with_llm`, decision step (the screenshot is
assumed to exist; `genResult` is the outcome of `_generate`, `none` when it
raised).  The model text goes through payload extraction and `json.loads`; any
failure on the way is recovered with `fallbackDecision`; a successfully parsed
value is returned as-is, with no shape check. -/
def analyze_screen_with_llm (genResult : Option String) : Json :=
  match genResult with
  | none => fallbackDecision
  | some text =>
    match Json.parse (extract_json_payload text) with
    | some v => v
    | none => fallbackDecision

/-- The `actions` entry of a parsed decision (`decision.get("actions", [])`),
when the decision is a dict whose `actions` entry is a list. -/
def Json.actionsEntry : Json → Option (List Json)
  | .jobj fields =>
    match (fields.reverse.find? fun p => p.1 == "actions").map Prod.snd with
    | some (.jarr xs) => some xs
    | _ => none
  | _ => none

/-! ## FallbackCommandParser — `GeminiLLMEngine._fallback_command_parse`

Each regex of the source is modelled by a dedicated matcher implementing that
pattern's search semantics (leftmost match, greedy and lazy quantifiers with
the backtracking the pattern can actually exercise, ASCII word boundaries).
The commit points below are exact because the relevant alternatives start with
distinct literal characters. -/

/-- Regex word characters (ASCII). -/
def isWordChar (c : Char) : Bool := c.isAlphanum || c == '_'

/-- A word boundary right before a word character, given the preceding
character (`none` at the start of the text). -/
def boundaryBefore : Option Char → Bool
  | none => true
  | some c => !isWordChar c

/-- A word boundary right after a word character, given the rest of the text. -/
def wordEndsAt (cs : List Char) : Bool :=
  match cs with
  | [] => true
  | c :: _ => !isWordChar c

/-- Leftmost-match regex search: try the attempt at every position, carrying
the preceding character for boundary checks. -/
def reScan (f : Option Char → List Char → Option α) : Option Char → List Char → Option α
  | prev, [] => f prev []
  | prev, c :: rest =>
    match f prev (c :: rest) with
    | some r => some r
    | none => reScan f (some c) rest

/-- Characters of the sku token class (alphanumerics, underscore, hyphen). -/
def isSkuTokenChar (c : Char) : Bool := c.isAlphanum || c == '_' || c == '-'

/-- The sku token: optional whitespace, then a maximal token-class run whose
trailing hyphens are dropped so the trailing word boundary holds; empty means
no match. -/
def skuTokenFrom (cs : List Char) : Option (List Char) :=
  let r := cs.dropWhile isPySpace
  let run := r.takeWhile isSkuTokenChar
  let tok := (run.reverse.dropWhile (· == '-')).reverse
  if tok.isEmpty then none else some tok

/-- One attempt of the sku pattern: word boundary, case-insensitive "sku",
optional whitespace, an optional ':', '#' or '-' separator (greedy, with the
fallback to not taking it), then the captured token. -/
def skuAttempt (prev : Option Char) (cs : List Char) : Option (List Char) :=
  if boundaryBefore prev then
    match takeLitCI ['s', 'k', 'u'] cs with
    | none => none
    | some r1 =>
      let r2 := r1.dropWhile isPySpace
      match r2 with
      | c :: rest =>
        if c == ':' || c == '#' || c == '-' then
          match skuTokenFrom rest with
          | some tok => some tok
          | none => skuTokenFrom r2
        else skuTokenFrom r2
      | [] => none
  else none

/-- The scan of `re.findall` over quoted spans, with fuel bounding the number
of steps (the input length always suffices, as every step shortens the
input). -/
def findQuotedAux : Nat → List Char → List (List Char)
  | 0, _ => []
  | _ + 1, [] => []
  | fuel + 1, c :: rest =>
    if c = '"' then
      let run := rest.takeWhile (fun x => x ≠ '"')
      if run.length < rest.length then
        if run.isEmpty then findQuotedAux fuel rest
        else run :: findQuotedAux fuel (rest.drop (run.length + 1))
      else []
    else findQuotedAux fuel rest

/-- Embeds `re.findall` of quoted spans: nonempty runs between double quotes,
leftmost, non-overlapping. -/
def findQuoted (cs : List Char) : List (List Char) :=
  findQuotedAux cs.length cs

/-- The tail of the title pattern after the word "to": at least one whitespace
character, then the captured rest of the line (backtracking one whitespace
character when the rest would be empty). -/
def titleTailAt (cs : List Char) : Option (List Char) :=
  let ws := cs.takeWhile isPySpace
  if ws.isEmpty then none
  else
    let g := cs.drop ws.length
    if g.isEmpty then
      if ws.length ≥ 2 then some (cs.drop (ws.length - 1)) else none
    else if g.contains '\n' then none
    else some g

/-- Attempt the word "to" (case-insensitive, word-bounded) followed by the
title tail, anchored at the current position. -/
def titleToAttempt (prev : Option Char) (cs : List Char) : Option (List Char) :=
  if boundaryBefore prev then
    match takeLitCI ['t', 'o'] cs with
    | some r => if wordEndsAt r then titleTailAt r else none
    | none => none
  else none

/-- The lazy dot-plus scan toward the first word-bounded "to" whose tail
matches; stops at a newline, which the dot cannot cross. -/
def titleToScan : Option Char → List Char → Option (List Char)
  | prev, [] => titleToAttempt prev []
  | prev, c :: rest =>
    match titleToAttempt prev (c :: rest) with
    | some g => some g
    | none => if c == '\n' then none else titleToScan (some c) rest

/-- After the field word ("name"/"title"): the lazy dot-plus needs at least one
character before the "to". -/
def titleSearchAfterField (cs : List Char) : Option (List Char) :=
  match cs with
  | [] => none
  | c :: rest => if c == '\n' then none else titleToScan (some c) rest

/-- One attempt of the title-update pattern: "update" or "change",
whitespace, an optional "the" plus whitespace (greedy with fallback), the field
word "name" or "title", then the lazy scan for "to value". -/
def nameAttempt (_prev : Option Char) (cs : List Char) : Option (List Char) :=
  let afterVerb :=
    match takeLitCI ['u', 'p', 'd', 'a', 't', 'e'] cs with
    | some r => some r
    | none => takeLitCI ['c', 'h', 'a', 'n', 'g', 'e'] cs
  match afterVerb with
  | none => none
  | some r0 =>
    if (r0.takeWhile isPySpace).isEmpty then none
    else
      let r1 := r0.dropWhile isPySpace
      let fieldAt (r : List Char) : Option (List Char) :=
        match takeLitCI ['n', 'a', 'm', 'e'] r with
        | some rf => titleSearchAfterField rf
        | none =>
          match takeLitCI ['t', 'i', 't', 'l', 'e'] r with
          | some rf => titleSearchAfterField rf
          | none => none
      let withThe : Option (List Char) :=
        match takeLitCI ['t', 'h', 'e'] r1 with
        | some rt =>
          if (rt.takeWhile isPySpace).isEmpty then none
          else some (rt.dropWhile isPySpace)
        | none => none
      match withThe with
      | some r2 =>
        match fieldAt r2 with
        | some g => some g
        | none => fieldAt r1
      | none => fieldAt r1

/-- The number group: digits with an optional fractional part (taken only when
at least one digit follows the dot); returns the matched literal. -/
def numberLiteralAt (cs : List Char) : Option (List Char) :=
  let d := cs.takeWhile Char.isDigit
  if d.isEmpty then none
  else
    match cs.drop d.length with
    | '.' :: r2 =>
      let f := r2.takeWhile Char.isDigit
      if f.isEmpty then some d else some (d ++ '.' :: f)
    | _ => some d

/-- Attempt the word "to" followed by optional whitespace and the number
group, anchored at the current position (the price pattern's tail). -/
def priceToAttempt (prev : Option Char) (cs : List Char) : Option (List Char) :=
  if boundaryBefore prev then
    match takeLit ['t', 'o'] cs with
    | some r =>
      if wordEndsAt r then numberLiteralAt (r.dropWhile isPySpace) else none
    | none => none
  else none

/-- The lazy dot-star scan toward the first word-bounded "to" that is followed
by a number. -/
def priceToScan : Option Char → List Char → Option (List Char)
  | prev, [] => priceToAttempt prev []
  | prev, c :: rest =>
    match priceToAttempt prev (c :: rest) with
    | some g => some g
    | none => if c == '\n' then none else priceToScan (some c) rest

/-- The word "price" or "prices" with a trailing word boundary; returns the
last matched character (for boundary bookkeeping) and the rest. -/
def priceWordAt (cs : List Char) : Option (Char × List Char) :=
  match takeLit ['p', 'r', 'i', 'c', 'e'] cs with
  | none => none
  | some r =>
    if wordEndsAt r then some ('e', r)
    else
      match r with
      | 's' :: r2 => if wordEndsAt r2 then some ('s', r2) else none
      | _ => none

/-- One attempt of the price pattern (on the lowercased text): word-bounded
"price"/"prices", then the lazy scan for "to number". -/
def priceAttempt (prev : Option Char) (cs : List Char) : Option (List Char) :=
  if boundaryBefore prev then
    match priceWordAt cs with
    | some r => priceToScan (some r.1) r.2
    | none => none
  else none

/-- Terminators of the category group: whitespace then "from the file",
whitespace then "to" then whitespace, or the end of the text. -/
def catTerminator (rest : List Char) : Bool :=
  rest.isEmpty ||
    (let w := rest.takeWhile isPySpace
     !w.isEmpty &&
       (let r1 := rest.drop w.length
        (match takeLit ['t', 'o'] r1 with
         | some r2 => !(r2.takeWhile isPySpace).isEmpty
         | none => false) ||
        (match takeLit ['f', 'r', 'o', 'm'] r1 with
         | some r2 =>
           let w2 := r2.takeWhile isPySpace
           !w2.isEmpty &&
             (match takeLit ['t', 'h', 'e'] (r2.drop w2.length) with
              | some r3 =>
                let w3 := r3.takeWhile isPySpace
                !w3.isEmpty && startsLit ['f', 'i', 'l', 'e'] (r3.drop w3.length)
              | none => false)
         | none => false)))

/-- The lazy expansion of the category group over letters and whitespace,
stopping as soon as a terminator follows. -/
def lazyCatScan (acc : List Char) : List Char → Option (List Char)
  | [] => none
  | c :: rest =>
    if c.isAlpha || isPySpace c then
      if catTerminator rest then some (acc ++ [c]) else lazyCatScan (acc ++ [c]) rest
    else none

/-- One attempt of the category pattern (on the lowercased text): word-bounded
"of"/"for"/"in", whitespace, then a letter followed by the lazy group. -/
def categoryAttempt (prev : Option Char) (cs : List Char) : Option (List Char) :=
  if boundaryBefore prev then
    let afterKw :=
      match takeLit ['o', 'f'] cs with
      | some r => some r
      | none =>
        match takeLit ['f', 'o', 'r'] cs with
        | some r => some r
        | none => takeLit ['i', 'n'] cs
    match afterKw with
    | none => none
    | some r =>
      if (r.takeWhile isPySpace).isEmpty then none
      else
        match r.dropWhile isPySpace with
        | c :: rest => if c.isAlpha then lazyCatScan [c] rest else none
        | [] => none
  else none

/-- Python `str.strip(ch)` for a single strip character. -/
def stripChar (ch : Char) (cs : List Char) : List Char :=
  ((cs.dropWhile (· == ch)).reverse.dropWhile (· == ch)).reverse

/-- Values a workflow update can hold: a string, or a number coerced to an
integer when the literal has no decimal point and to a float otherwise. -/
inductive FieldVal where
  | strV (s : String)
  | intV (n : Nat)
  | floatV (q : ℚ)
  deriving DecidableEq

/-- Embeds `int(value)` / `float(value)` on the matched number literal. -/
def numValOfLiteral (lit : List Char) : FieldVal :=
  if lit.contains '.' then
    let d := lit.takeWhile (fun c => c ≠ '.')
    let f := lit.drop (d.length + 1)
    .floatV ((digitsVal d : ℚ) + (digitsVal f : ℚ) / (10 : ℚ) ^ f.length)
  else .intV (digitsVal lit)

/-- Insertion-ordered dict update: replace in place, or append a new key. -/
def dictSet (m : List (String × α)) (k : String) (v : α) : List (String × α) :=
  if m.any (fun p => p.1 == k) then m.map fun p => if p.1 == k then (k, v) else p
  else m ++ [(k, v)]

/-- Dict key membership. -/
def dictHas (m : List (String × α)) (k : String) : Bool :=
  m.any fun p => p.1 == k

/-- The operation keyword rules of the fallback parser. -/
def operationOf (lowered : List Char) : String :=
  if containsSub ['n', 'e', 'w'] lowered && containsSub ['l', 'i', 's', 't'] lowered then
    "new_listing"
  else if containsSub ['b', 'u', 'l', 'k'] lowered || containsSub ['a', 'l', 'l', ' '] lowered
      || containsSub [' ', 'a', 'l', 'l'] lowered then
    "bulk_update"
  else "edit_listing"

/-- Whether the command mentions price/update intent (the guard on the category
filter). -/
def mentionsUpdateIntent (lowered : List Char) : Bool :=
  containsSub ['p', 'r', 'i', 'c', 'e'] lowered ||
  containsSub ['p', 'r', 'i', 'c', 'e', 's'] lowered ||
  containsSub ['c', 'h', 'a', 'n', 'g', 'e'] lowered ||
  containsSub ['u', 'p', 'd', 'a', 't', 'e'] lowered

/-- The structured representation of a user command. -/
structure WorkflowDescriptor where
  operation : String
  updates : List (String × FieldVal)
  sku : String
  filters : List (String × String)
  notes : String
  deriving DecidableEq

/-- The notes line the fallback parser always records. -/
def fallbackNotes : String :=
  "Fallback parser used because LLM response was unavailable or invalid."

/-- Embeds `GeminiLLMEngine._fallback_command_parse`. -/
def fallback_command_parse (command : String) : WorkflowDescriptor :=
  let normalized := stripList command.toList
  let lowered := normalized.map Char.toLower
  let operation := operationOf lowered
  let sku :=
    match reScan skuAttempt none normalized with
    | some tok => String.mk tok
    | none => ""
  let quoted := findQuoted normalized
  let updates0 : List (String × FieldVal) := []
  let updates1 :=
    match reScan nameAttempt none normalized with
    | some g =>
      dictSet updates0 "title" (.strV (String.mk (stripChar singleQuoteChar (stripChar '"' (stripList g)))))
    | none => updates0
  let updates2 :=
    match reScan priceAttempt none lowered with
    | some lit => dictSet updates1 "price" (numValOfLiteral lit)
    | none => updates1
  let filters0 : List (String × String) := []
  let filters1 :=
    match reScan categoryAttempt none lowered with
    | some g =>
      if mentionsUpdateIntent lowered then dictSet filters0 "category" (String.mk (stripList g))
      else filters0
    | none => filters0
  let pair :=
    if quoted.length ≥ 2 && dictHas updates2 "title" then
      (dictSet updates2 "title" (.strV (String.mk (quoted.getLastD []))),
       dictSet filters1 "title" (String.mk (quoted.headD [])))
    else if quoted.length == 1 && !dictHas updates2 "title" then
      (updates2, dictSet filters1 "title" (String.mk (quoted.headD [])))
    else (updates2, filters1)
  ⟨operation, pair.1, sku, pair.2, fallbackNotes⟩

/-! ## General lemmas -/

/-- The head of a `dropWhile` result fails the predicate. -/
theorem dropWhile_head_false {p : Char → Bool} {l : List Char} {a : Char} {r : List Char}
    (h : l.dropWhile p = a :: r) : p a = false := by
  induction l with
  | nil => simp [List.dropWhile] at h
  | cons b t ih =>
    rw [List.dropWhile_cons] at h
    by_cases hb : p b = true
    · rw [if_pos hb] at h
      exact ih h
    · rw [if_neg hb] at h
      injection h with h1 _
      simpa [← h1] using hb

/-- Stripping is idempotent. -/
theorem stripList_idempotent (cs : List Char) :
    stripList (stripList cs) = stripList cs := by
  unfold stripList
  have h1 : ((cs.dropWhile isPySpace).rdropWhile isPySpace).dropWhile isPySpace
      = (cs.dropWhile isPySpace).rdropWhile isPySpace := by
    obtain ⟨t, ht⟩ := List.rdropWhile_prefix isPySpace (cs.dropWhile isPySpace)
    cases hr : (cs.dropWhile isPySpace).rdropWhile isPySpace with
    | nil => rfl
    | cons a rest =>
      have hma : cs.dropWhile isPySpace = a :: (rest ++ t) := by
        rw [← ht, hr]
        simp
      have hpa : isPySpace a = false := dropWhile_head_false hma
      rw [List.dropWhile_cons, hpa]
      simp
  rw [h1, List.rdropWhile_idempotent]

/-- Applying `String.toList` to `String.mk` returns the character list. -/
theorem toList_mk (cs : List Char) : (String.mk cs).toList = cs := rfl

/-! ## C9 — idempotence of the payload extractor on clean JSON text -/

/-- C9: for every string whose trimmed form starts with an opening brace or
bracket, the payload extractor is idempotent: extracting twice equals
extracting once. -/
theorem extract_idempotent_on_clean (x : String)
    (h : (headIs (stripList x.toList) '{' || headIs (stripList x.toList) '[') = true) :
    extract_json_payload (extract_json_payload x) = extract_json_payload x := by
  have hout : extract_json_payload x = String.mk (stripList x.toList) := by
    unfold extract_json_payload
    rw [if_pos h]
  rw [hout]
  have hidem : stripList (String.mk (stripList x.toList)).toList = stripList x.toList := by
    rw [toList_mk]
    exact stripList_idempotent _
  unfold extract_json_payload
  rw [hidem, if_pos h]

/-- Witness for C9 at a concrete clean-JSON string. -/
theorem extract_idempotent_on_clean_witness :
    extract_json_payload (extract_json_payload " \x7b\"a\": 1\x7d ")
      = extract_json_payload " \x7b\"a\": 1\x7d " :=
  extract_idempotent_on_clean " \x7b\"a\": 1\x7d " (by decide)

/-! ## C6 — the third extraction strategy -/

/-- Characters that open a JSON payload. -/
def isOpenerChar (c : Char) : Bool := c == '{' || c == '['

/-- Characters that close a JSON payload. -/
def isCloserChar (c : Char) : Bool := c == '}' || c == ']'

/-- Modelled from the spec's wording, in its amended form: the slice of the
trimmed text from the first opener through the last occurrence, at or after
it, of either closer (not necessarily the one matching the opener); to the end
of the text when no closer follows; the trimmed text itself when it has no
opener. -/
def extractByPositions (stripped : List Char) : List Char :=
  match firstIdxWhere isOpenerChar stripped with
  | none => stripped
  | some i =>
    let tail := stripped.drop i
    match firstIdxWhere isCloserChar tail.reverse with
    | none => tail
    | some k => tail.take (tail.length - k)

/-- A found index is inside the list. -/
theorem firstIdxWhere_lt_length {p : Char → Bool} {l : List Char} {i : Nat}
    (h : firstIdxWhere p l = some i) : i < l.length := by
  induction l generalizing i with
  | nil => simp [firstIdxWhere] at h
  | cons a t ih =>
    rw [firstIdxWhere] at h
    by_cases hp : p a = true
    · rw [if_pos hp] at h
      injection h with h1
      simp [← h1]
    · rw [if_neg hp] at h
      cases hm : firstIdxWhere p t with
      | none => rw [hm] at h; simp at h
      | some i2 =>
        rw [hm] at h
        simp only [Option.map_some'] at h
        injection h with h1
        have := ih hm
        simp only [List.length_cons]
        omega

/-- With no satisfying element there is no index. -/
theorem firstIdxWhere_eq_none_of (p : Char → Bool) (l : List Char)
    (h : ∀ c ∈ l, p c = false) : firstIdxWhere p l = none := by
  induction l with
  | nil => rfl
  | cons a t ih =>
    rw [firstIdxWhere, if_neg (by simp [h a (List.mem_cons_self a t)])]
    rw [ih fun c hc => h c (List.mem_cons_of_mem _ hc)]
    rfl

/-- Searching for a disjunction of predicates is the minimum-combine of the
two searches (the shape of the source's min-over-finds). -/
theorem firstIdxWhere_or (p q : Char → Bool) (l : List Char) :
    firstIdxWhere (fun c => p c || q c) l =
      match firstIdxWhere p l, firstIdxWhere q l with
      | none, none => none
      | some i, none => some i
      | none, some j => some j
      | some i, some j => some (min i j) := by
  induction l with
  | nil => rfl
  | cons a t ih =>
    by_cases hp : p a = true
    · have hl : firstIdxWhere (fun c => p c || q c) (a :: t) = some 0 := by
        simp [firstIdxWhere, hp]
      have hr : firstIdxWhere p (a :: t) = some 0 := by simp [firstIdxWhere, hp]
      rw [hl, hr]
      cases hq2 : firstIdxWhere q (a :: t) with
      | none => rfl
      | some j => simp [Nat.zero_min]
    · by_cases hq : q a = true
      · have hl : firstIdxWhere (fun c => p c || q c) (a :: t) = some 0 := by
          simp [firstIdxWhere, hp, hq]
        have hr : firstIdxWhere q (a :: t) = some 0 := by simp [firstIdxWhere, hq]
        rw [hl, hr]
        cases hpv : firstIdxWhere p (a :: t) with
        | none => rfl
        | some i => simp [Nat.min_zero]
      · have hstep : ∀ (r : Char → Bool), r a = false →
            firstIdxWhere r (a :: t) = (firstIdxWhere r t).map (· + 1) := by
          intro r hr
          rw [firstIdxWhere, if_neg (by simp [hr])]
        rw [hstep _ (by simp [hp, hq]), hstep p (by simpa using hp), hstep q (by simpa using hq), ih]
        cases firstIdxWhere p t <;> cases firstIdxWhere q t <;>
          simp [Nat.succ_min_succ]

/-- The function `firstOpener` is the first index holding either opener. -/
theorem firstOpener_eq (cs : List Char) :
    firstOpener cs = firstIdxWhere isOpenerChar cs := by
  unfold firstOpener pyFindChar
  rw [show firstIdxWhere isOpenerChar cs
        = firstIdxWhere (fun c => c == '{' || c == '[') cs from rfl,
     firstIdxWhere_or]

/-- The function `lastCloser` is the last index holding either closer, located through the
reversed list. -/
theorem lastCloser_eq (cs : List Char) :
    lastCloser cs
      = (firstIdxWhere isCloserChar cs.reverse).map (fun k => cs.length - 1 - k) := by
  unfold lastCloser pyRfindChar
  rw [show firstIdxWhere isCloserChar cs.reverse
        = firstIdxWhere (fun c => c == '}' || c == ']') cs.reverse from rfl,
     firstIdxWhere_or]
  cases h1 : firstIdxWhere (· == '}') cs.reverse with
  | none =>
    cases h2 : firstIdxWhere (· == ']') cs.reverse with
    | none => rfl
    | some j => rfl
  | some i =>
    cases h2 : firstIdxWhere (· == ']') cs.reverse with
    | none => rfl
    | some j =>
      have hi := firstIdxWhere_lt_length h1
      have hj := firstIdxWhere_lt_length h2
      rw [List.length_reverse] at hi hj
      simp only [Option.map_some']
      congr 1
      omega

/-- Membership survives `dropWhile`. -/
theorem mem_of_mem_dropWhile {p : Char → Bool} {l : List Char} {a : Char}
    (h : a ∈ l.dropWhile p) : a ∈ l := by
  induction l with
  | nil => simp [List.dropWhile] at h
  | cons b t ih =>
    rw [List.dropWhile_cons] at h
    by_cases hb : p b = true
    · rw [if_pos hb] at h
      exact List.mem_cons_of_mem _ (ih h)
    · rwa [if_neg hb] at h

/-- Membership survives `rdropWhile`. -/
theorem mem_of_mem_rdropWhile {p : Char → Bool} {l : List Char} {a : Char}
    (h : a ∈ l.rdropWhile p) : a ∈ l := by
  unfold List.rdropWhile at h
  rw [List.mem_reverse] at h
  have := mem_of_mem_dropWhile h
  rwa [List.mem_reverse] at this

/-- Membership survives stripping. -/
theorem mem_of_mem_stripList {l : List Char} {a : Char}
    (h : a ∈ stripList l) : a ∈ l :=
  mem_of_mem_dropWhile (mem_of_mem_rdropWhile h)

/-- Characters of a `takeLit` remainder come from the input. -/
theorem takeLit_mem {lit : List Char} {cs r : List Char}
    (h : takeLit lit cs = some r) : ∀ x ∈ r, x ∈ cs := by
  induction lit generalizing cs with
  | nil =>
    rw [takeLit] at h
    injection h with h1
    subst h1
    exact fun x hx => hx
  | cons l ls ih =>
    cases cs with
    | nil => simp [takeLit] at h
    | cons c cs2 =>
      rw [takeLit] at h
      by_cases hc : (c == l) = true
      · rw [if_pos hc] at h
        exact fun x hx => List.mem_cons_of_mem _ (ih h x hx)
      · rw [if_neg hc] at h
        simp at h

/-- A successful fenced-block attempt implies an opener occurs in the input. -/
theorem fencedAttempt_has_opener {cs g : List Char} (h : fencedAttempt cs = some g) :
    ∃ c ∈ cs, isOpenerChar c = true := by
  unfold fencedAttempt at h
  cases h0 : takeLit [backquoteChar, backquoteChar, backquoteChar] cs with
  | none => rw [h0] at h; simp at h
  | some r0 =>
    rw [h0] at h
    simp only at h
    have hmem0 := takeLit_mem h0
    have hr1 : ∀ x ∈ (match takeLit ['j', 's', 'o', 'n'] r0 with
        | some r => r
        | none => r0), x ∈ cs := by
      cases h1 : takeLit ['j', 's', 'o', 'n'] r0 with
      | none => simpa using hmem0
      | some r => simpa using fun x hx => hmem0 x (takeLit_mem h1 x hx)
    set r1 := (match takeLit ['j', 's', 'o', 'n'] r0 with
        | some r => r
        | none => r0) with hr1def
    cases h2 : r1.dropWhile isPySpace with
    | nil => rw [h2] at h; simp at h
    | cons c rest2 =>
      rw [h2] at h
      dsimp only at h
      have hcmem : c ∈ cs := by
        apply hr1
        apply mem_of_mem_dropWhile (p := isPySpace)
        rw [h2]
        exact List.mem_cons_self c rest2
      by_cases hbrace : (c == '{') = true
      · exact ⟨c, hcmem, by simp [isOpenerChar, hbrace]⟩
      · rw [if_neg hbrace] at h
        by_cases hbrack : (c == '[') = true
        · exact ⟨c, hcmem, by simp [isOpenerChar, hbrack]⟩
        · rw [if_neg hbrack] at h
          simp at h

/-- With no opener in the text, the fenced-block search fails. -/
theorem fencedSearch_eq_none {cs : List Char}
    (h : ∀ c ∈ cs, isOpenerChar c = false) : fencedSearch cs = none := by
  induction cs with
  | nil => rfl
  | cons a t ih =>
    rw [fencedSearch]
    cases hA : fencedAttempt (a :: t) with
    | some g =>
      obtain ⟨c, hc, hop⟩ := fencedAttempt_has_opener hA
      rw [h c hc] at hop
      simp at hop
    | none => exact ih fun c hc => h c (List.mem_cons_of_mem _ hc)

/-- C6 counterexample: on the text "x Lbrace 1 Rbrace space Rbracket" (written
with braces), whose first opener is a brace, the extractor slices through the
final bracket — the last closer of either kind — not through the last brace,
so the result is not the brace-delimited span the claim predicts. -/
theorem extract_matching_closer_refuted :
    extract_json_payload "x \x7b1\x7d ]" = "\x7b1\x7d ]" ∧
      ("\x7b1\x7d ]" : String) ≠ "\x7b1\x7d" := by
  constructor
  · rfl
  · decide

/-- C6 (amended): for text whose trimmed form does not start with an opener
and has no fenced block, the extractor returns the slice from the first opener
through the last closer of either kind (to the end when no closer follows);
for text with no opener at all it returns the trimmed text unchanged. -/
theorem extract_positional_form (x : String) :
    (((headIs (stripList x.toList) '{' || headIs (stripList x.toList) '[') = false) →
      fencedSearch (stripList x.toList) = none →
      extract_json_payload x = String.mk (extractByPositions (stripList x.toList)))
  ∧ ((∀ c ∈ x.toList, isOpenerChar c = false) →
      extract_json_payload x = String.mk (stripList x.toList)) := by
  have hmain : ((headIs (stripList x.toList) '{' || headIs (stripList x.toList) '[') = false) →
      fencedSearch (stripList x.toList) = none →
      extract_json_payload x = String.mk (extractByPositions (stripList x.toList)) := by
    intro hhead hfen
    simp only [extract_json_payload, hhead, Bool.false_eq_true, if_false, hfen]
    rw [extractByPositions, ← firstOpener_eq]
    cases hfo : firstOpener (stripList x.toList) with
    | none => rfl
    | some i =>
      simp only
      rw [lastCloser_eq]
      cases hc : firstIdxWhere isCloserChar ((stripList x.toList).drop i).reverse with
      | none => rfl
      | some k =>
        have hk := firstIdxWhere_lt_length hc
        rw [List.length_reverse] at hk
        simp only [Option.map_some']
        have harg : ((stripList x.toList).drop i).length - 1 - k + 1
            = ((stripList x.toList).drop i).length - k := by omega
        rw [harg]
  refine ⟨hmain, ?_⟩
  intro hall
  have hstr : ∀ c ∈ stripList x.toList, isOpenerChar c = false :=
    fun c hc => hall c (mem_of_mem_stripList hc)
  have hhead : (headIs (stripList x.toList) '{' || headIs (stripList x.toList) '[') = false := by
    cases hsl : stripList x.toList with
    | nil => rfl
    | cons a t =>
      have ha := hstr a (by rw [hsl]; exact List.mem_cons_self a t)
      simp only [isOpenerChar, Bool.or_eq_false_iff] at ha
      simp [headIs, hsl, ha.1, ha.2]
  have hres := hmain hhead (fencedSearch_eq_none hstr)
  rw [hres, extractByPositions, firstIdxWhere_eq_none_of _ _ hstr]

/-- Witness for the C6 theorem at a concrete prose-wrapped payload. -/
theorem extract_positional_form_witness :
    extract_json_payload "see \x7bx\x7d here"
      = String.mk (extractByPositions (stripList ("see \x7bx\x7d here").toList)) :=
  (extract_positional_form "see \x7bx\x7d here").1 (by decide) (by decide)

/-! ## C5 — failure recovery of the decision step -/

/-- C5 counterexample: a model response that parses as a decision with an
empty actions list is returned as-is by the decision step — it is not replaced
by the safe default, contradicting the claim that a decision without at least
one ActionItem is treated as malformed and recovered. -/
theorem empty_actions_passthrough :
    (analyze_screen_with_llm (some "\x7b\"actions\": []\x7d")).actionsEntry = some []
    ∧ analyze_screen_with_llm (some "\x7b\"actions\": []\x7d") ≠ fallbackDecision := by
  constructor
  · rfl
  · intro h
    have h2 : ((analyze_screen_with_llm
          (some "\x7b\"actions\": []\x7d")).actionsEntry.getD []).length
        = (fallbackDecision.actionsEntry.getD []).length := by rw [h]
    rw [show ((analyze_screen_with_llm
          (some "\x7b\"actions\": []\x7d")).actionsEntry.getD []).length = 0 from rfl] at h2
    rw [show (fallbackDecision.actionsEntry.getD []).length = 1 from rfl] at h2
    exact Nat.zero_ne_one h2

/-- C5 (amended): the decision step substitutes the safe default decision
(single wait action, risk error) exactly when generation failed or the
extracted text does not parse as JSON, and it never raises; a successfully
parsed value — including one whose actions list is empty — is returned
unchanged. -/
theorem analyze_screen_recovers_failures (genResult : Option String) :
    (genResult = none → analyze_screen_with_llm genResult = fallbackDecision)
    ∧ (∀ t, genResult = some t → Json.parse (extract_json_payload t) = none →
        analyze_screen_with_llm genResult = fallbackDecision)
    ∧ (∀ t v, genResult = some t → Json.parse (extract_json_payload t) = some v →
        analyze_screen_with_llm genResult = v) := by
  refine ⟨?_, ?_, ?_⟩
  · intro h
    rw [h]
    rfl
  · intro t ht hp
    rw [ht]
    unfold analyze_screen_with_llm
    dsimp only
    rw [hp]
  · intro t v ht hp
    rw [ht]
    unfold analyze_screen_with_llm
    dsimp only
    rw [hp]

/-- Witness for C5 at a concrete unparseable model text. -/
theorem analyze_screen_recovers_failures_witness :
    analyze_screen_with_llm (some "I am unable to answer that.") = fallbackDecision :=
  (analyze_screen_recovers_failures (some "I am unable to answer that.")).2.1
    "I am unable to answer that." rfl (by rfl)

/-! ## C3, C4, C10 — the action executor -/

/-- A page on which no locator strategy finds anything. -/
def pageEmpty : Page := ⟨fun _ => 0, fun _ => 0, fun _ => 0, fun _ => 0⟩

/-- A page whose label strategy always finds one element. -/
def pageAllLabel : Page := ⟨fun _ => 1, fun _ => 0, fun _ => 0, fun _ => 0⟩

/-- A press action aimed at the target "Submit" with an empty value. -/
def pressItem : ActionItem := ⟨some "press", some "Submit", some ""⟩

/-- C3 counterexample: on a page where the target resolves to nothing, a
`press` action sends no key signal at all — the executor runs target
resolution first (the claim says resolution is skipped entirely for `press`)
and, when resolution fails, takes the warning no-op path instead of pressing
the key. -/
theorem press_skips_resolution_refuted :
    execute_action pageEmpty pressItem
      = (false, [.resolve "Submit" false, .warn "Submit" "press", .sleep 8 16])
    ∧ (execute_action pageEmpty pressItem).2.countP ExecEvent.isKeySignal = 0 := by
  constructor
  · rfl
  · rfl

/-- C3 (amended): a `press` action first runs the locator chain like any other
targeted action; with a resolved target it sends exactly one key signal — the
key named by `value`, or Enter when `value` is empty — and returns
non-terminal; with an unresolved target it takes the warning no-op path and
sends no key. -/
theorem press_after_resolution (page : Page) (item : ActionItem)
    (h : item.action = some "press") :
    (∀ s, resolveChain page (item.target.getD "") = some s →
      execute_action page item
        = (false, [.resolve (item.target.getD "") true,
            .pressKey (if item.value.getD "" = "" then "Enter" else item.value.getD ""),
            .sleep 5 25]))
    ∧ (resolveChain page (item.target.getD "") = none →
      execute_action page item
        = (false, [.resolve (item.target.getD "") false,
            .warn (item.target.getD "") "press", .sleep 8 16])) := by
  constructor
  · intro s hs
    simp only [execute_action, h, Option.getD_some]
    rw [if_neg (by decide), if_neg (by decide), if_neg (by decide), hs]
    simp
  · intro hn
    simp only [execute_action, h, Option.getD_some]
    rw [if_neg (by decide), if_neg (by decide), if_neg (by decide), hn]

/-- Witness for C3 at a page that resolves every label. -/
theorem press_after_resolution_witness :
    execute_action pageAllLabel pressItem
      = (false, [.resolve "Submit" true, .pressKey "Enter", .sleep 5 25]) := by
  have h := (press_after_resolution pageAllLabel pressItem rfl).1 Strategy.label (by decide)
  simpa using h

/-- C4: a click, hover, type or upload action whose target the four-strategy
chain cannot resolve logs a warning, sleeps 0.8 to 1.6 time units and returns
non-terminal; the executor returns normally (the embedding is a total
function with no error outcome), so the unresolved target never escalates. -/
theorem unresolved_target_nonfatal (page : Page) (item : ActionItem)
    (hk : item.action = some "click" ∨ item.action = some "hover"
      ∨ item.action = some "type" ∨ item.action = some "upload")
    (hr : resolveChain page (item.target.getD "") = none) :
    execute_action page item
      = (false, [.resolve (item.target.getD "") false,
          .warn (item.target.getD "") (item.action.getD "wait"),
          .sleep 8 16]) := by
  rcases hk with h | h | h | h <;>
  · simp only [execute_action, h, Option.getD_some]
    rw [if_neg (by decide), if_neg (by decide), if_neg (by decide), hr]

/-- Witness for C4 at a concrete unresolvable click. -/
theorem unresolved_target_nonfatal_witness :
    execute_action pageEmpty ⟨some "click", some "Save", some ""⟩
      = (false, [.resolve "Save" false, .warn "Save" "click", .sleep 8 16]) :=
  unresolved_target_nonfatal pageEmpty ⟨some "click", some "Save", some ""⟩
    (Or.inl rfl) (by decide)

/-- C10: an action dict without an `action` key is executed as a `wait` —
sleep 1 to 3 time units, non-terminal; and a missing `target` or `value` key
behaves exactly as the empty string, never as an error. -/
theorem missing_keys_default_to_wait (page : Page) (item : ActionItem) :
    (item.action = none → execute_action page item = (false, [.sleep 10 30]))
    ∧ (∀ a v, execute_action page ⟨a, none, v⟩ = execute_action page ⟨a, some "", v⟩)
    ∧ (∀ a t, execute_action page ⟨a, t, none⟩ = execute_action page ⟨a, t, some ""⟩) := by
  refine ⟨?_, ?_, ?_⟩
  · intro h
    simp only [execute_action, h, Option.getD_none]
    simp
  · intro a v
    rfl
  · intro a t
    rfl

/-- Witness for C10 at the empty action dict. -/
theorem missing_keys_default_to_wait_witness :
    execute_action pageEmpty ⟨none, none, none⟩ = (false, [.sleep 10 30]) :=
  (missing_keys_default_to_wait pageEmpty ⟨none, none, none⟩).1 rfl

/-! ## C8 — the retry policy of `_generate` -/

/-- The switch loop lands exactly on the first candidate whose construction
succeeds, and fails exactly when no candidate is viable. -/
theorem switchLoop_eq_find (env : GeminiEnv) (l : List String) (a : String) :
    (∀ c, l.find? env.ctorOk = some c → switchLoop env l a = (true, c))
    ∧ (l.find? env.ctorOk = none → (switchLoop env l a).1 = false) := by
  induction l generalizing a with
  | nil =>
    refine ⟨fun c hc => by simp [List.find?] at hc, fun _ => rfl⟩
  | cons b t ih =>
    constructor
    · intro c hc
      by_cases hb : env.ctorOk b = true
      · rw [List.find?_cons_of_pos _ hb] at hc
        injection hc with h1
        subst h1
        rw [switchLoop, if_pos hb]
      · rw [List.find?_cons_of_neg _ hb] at hc
        rw [switchLoop, if_neg hb]
        exact (ih b).1 c hc
    · intro hn
      by_cases hb : env.ctorOk b = true
      · rw [List.find?_cons_of_pos _ hb] at hn
        simp at hn
      · rw [List.find?_cons_of_neg _ hb] at hn
        rw [switchLoop, if_neg hb]
        exact (ih b).2 hn

/-- C8: a `_generate` call issues at most two requests; when the primary
request fails it switches the active identifier to the first viable candidate
of the discovery order — known-good candidates in their listed order first,
then the other discovered identifiers — and retries exactly once, surfacing
ModelUnavailable exactly when the retry also fails; when discovery yields no
viable candidate it surfaces ModelUnavailable after the single primary
request. -/
theorem generate_retry_policy (env : GeminiEnv) (active : String) :
    (generate env active).2.2 ≤ 2
    ∧ (env.generateResult active = none →
        (∀ first, (orderedCandidates env active).find? env.ctorOk = some first →
          (generate env active).2.1 = first ∧ (generate env active).2.2 = 2
          ∧ ((generate env active).1 = .modelUnavailable
              ↔ env.generateResult first = none))
        ∧ ((orderedCandidates env active).find? env.ctorOk = none →
          (generate env active).1 = .modelUnavailable
          ∧ (generate env active).2.2 = 1)) := by
  have hfind := switchLoop_eq_find env (orderedCandidates env active) active
  constructor
  · unfold generate
    cases hpr : env.generateResult active with
    | some t => simp
    | none =>
      dsimp only
      by_cases hsw : (try_switch_to_supported_model env active).1 = true
      · rw [if_pos hsw]
        cases env.generateResult (try_switch_to_supported_model env active).2 <;> simp
      · rw [if_neg hsw]
        simp
  · intro hnone
    constructor
    · intro first hfirst
      have hswi : try_switch_to_supported_model env active = (true, first) :=
        hfind.1 first hfirst
      unfold generate
      rw [hnone]
      dsimp only
      rw [hswi]
      dsimp only
      cases hrr : env.generateResult first with
      | some t => exact ⟨rfl, rfl, by simp⟩
      | none => exact ⟨rfl, rfl, by simp⟩
    · intro hfn
      have hswf : (try_switch_to_supported_model env active).1 = false := hfind.2 hfn
      unfold generate
      rw [hnone]
      dsimp only
      rw [if_neg (by simp [hswf])]
      exact ⟨rfl, rfl⟩

/-- An environment whose primary model fails and whose discovery offers one
viable known-good fallback. -/
def envSwitch : GeminiEnv :=
  ⟨fun s => if s = "gemini-2.5-flash-lite" then some "ok" else none,
   ["gemini-2.5-flash-lite"], fun _ => true⟩

/-- Witness for C8: the failing primary switches to the discovered candidate
and issues exactly two requests. -/
theorem generate_retry_policy_witness :
    (generate envSwitch "gemini-2.5-flash").2.1 = "gemini-2.5-flash-lite"
    ∧ (generate envSwitch "gemini-2.5-flash").2.2 = 2
    ∧ ((generate envSwitch "gemini-2.5-flash").1 = .modelUnavailable
        ↔ envSwitch.generateResult "gemini-2.5-flash-lite" = none) :=
  ((generate_retry_policy envSwitch "gemini-2.5-flash").2 (by decide)).1
    "gemini-2.5-flash-lite" (by decide)

/-! ## C7 — the fallback parser on the price-update command -/

/-- C7 counterexample: on "Update price of SKU123 to 799" the sku pattern
matches the literal marker "sku" (case-insensitively, against the "SKU" of
"SKU123") and captures only the token after it — "123" — not the full
"SKU123" the claim states. -/
theorem fallback_sku_literal_refuted :
    (fallback_command_parse "Update price of SKU123 to 799").sku = "123"
    ∧ (fallback_command_parse "Update price of SKU123 to 799").sku ≠ "SKU123" := by
  constructor
  · rfl
  · decide

/-- C7 (amended): the fallback parser is a pure function of its input (it is
deterministic by construction), and on "Update price of SKU123 to 799" it
yields operation edit_listing, the single integer price update 799 (the
literal has no decimal point), empty filters, and sku "123" — the
alphanumeric token following the "sku" marker, the marker itself not
included. -/
theorem fallback_parse_update_price_cmd :
    fallback_command_parse "Update price of SKU123 to 799"
      = ⟨"edit_listing", [("price", FieldVal.intV 799)], "123", [], fallbackNotes⟩ := by
  decide

/-! ## C1, C2 — the execution loop -/

/-- Number of snapshots in a trace: one per executed cycle. -/
def countSnapshots (t : List LoopEvent) : Nat :=
  t.countP LoopEvent.isSnapshot

/-- The events before dispatch are the snapshot and possibly the risk wait. -/
theorem preEvents_mem {c : Nat} {b : Bool} {e : LoopEvent} (h : e ∈ preEvents c b) :
    e = .snapshot c ∨ e = .riskWait c 80 120 := by
  cases b with
  | false =>
    simp only [preEvents, if_neg Bool.false_ne_true] at h
    simp at h
    exact Or.inl h
  | true =>
    simp only [preEvents, if_pos rfl] at h
    simp at h
    exact h

/-- A cycle contributes exactly one snapshot before dispatch. -/
theorem countSnapshots_preEvents (c : Nat) (b : Bool) :
    countSnapshots (preEvents c b) = 1 := by
  cases b <;> rfl

/-- The dispatch loop reports terminal exactly when some action executes as
terminal. -/
theorem dispatchActions_done (page : Page) (c : Nat) (l : List ActionItem) :
    ∀ i, (dispatchActions page c i l).2 = l.any fun a => (execute_action page a).1 := by
  induction l with
  | nil => intro i; rfl
  | cons a rest ih =>
    intro i
    rw [dispatchActions]
    by_cases ha : (execute_action page a).1 = true
    · rw [if_pos ha]
      simp [List.any_cons, ha]
    · rw [if_neg ha]
      dsimp only
      rw [ih (i + 1), List.any_cons]
      simp [Bool.not_eq_true] at ha
      simp [ha]

/-- Every event the dispatch loop emits is a dispatch of this cycle, with its
index below the first terminal action (or covering the whole list when no
action is terminal). -/
theorem dispatchActions_events (page : Page) (c : Nat) (l : List ActionItem) :
    ∀ i, ∀ e ∈ (dispatchActions page c i l).1,
      ∃ j a, e = .dispatch c j a ∧ i ≤ j
        ∧ j ≤ i + l.findIdx fun x => (execute_action page x).1 := by
  induction l with
  | nil =>
    intro i e he
    simp [dispatchActions] at he
  | cons a rest ih =>
    intro i e he
    rw [dispatchActions] at he
    by_cases ha : (execute_action page a).1 = true
    · rw [if_pos ha] at he
      simp at he
      exact ⟨i, a, he, Nat.le_refl i, by omega⟩
    · rw [if_neg ha] at he
      dsimp only at he
      rw [List.mem_cons] at he
      have ha2 : (execute_action page a).1 = false := by
        simpa [Bool.not_eq_true] using ha
      have hidx : (a :: rest).findIdx (fun x => (execute_action page x).1)
          = rest.findIdx (fun x => (execute_action page x).1) + 1 := by
        simp [List.findIdx_cons, ha2]
      rcases he with he | he
      · exact ⟨i, a, he, Nat.le_refl i, by omega⟩
      · obtain ⟨j, b, hj, hij, hbound⟩ := ih (i + 1) e he
        exact ⟨j, b, hj, by omega, by omega⟩

/-- The dispatch loop emits no snapshots. -/
theorem dispatchActions_count_snapshots (page : Page) (c : Nat) (l : List ActionItem) :
    ∀ i, countSnapshots (dispatchActions page c i l).1 = 0 := by
  induction l with
  | nil => intro i; rfl
  | cons a rest ih =>
    intro i
    rw [dispatchActions]
    by_cases ha : (execute_action page a).1 = true
    · rw [if_pos ha]; rfl
    · rw [if_neg ha]
      dsimp only
      simp only [countSnapshots, List.countP_cons] at ih ⊢
      simp [LoopEvent.isSnapshot, ih (i + 1)]

/-- Budget-exhaustion form of the loop: with no terminal cycle in the next `n`
cycles, the loop fails after exactly `n` snapshots. -/
theorem runCycles_budget (page : Page) (decisions : Nat → Decision) :
    ∀ n c, (∀ k, k < n → cycleTerminal page (decisions (c + k)) = false) →
      (runCycles page decisions c n).1 = .budgetExhausted
      ∧ countSnapshots (runCycles page decisions c n).2 = n := by
  intro n
  induction n with
  | zero => exact fun c _ => ⟨rfl, rfl⟩
  | succ n0 ih =>
    intro c hterm
    rw [runCycles]
    dsimp only
    have hstep : (dispatchActions page c 0 (decisions c).actions).2 = false := by
      rw [dispatchActions_done]
      have := hterm 0 (Nat.succ_pos n0)
      simpa [cycleTerminal] using this
    rw [if_neg (by simp [hstep])]
    have hrec := ih (c + 1) fun k hk => by
      have := hterm (k + 1) (by omega)
      rwa [show c + (k + 1) = c + 1 + k by omega] at this
    refine ⟨hrec.1, ?_⟩
    simp only [countSnapshots, List.countP_append]
    have h1 : countSnapshots (preEvents c (riskNeedsWait (decisions c).risk)) = 1 :=
      countSnapshots_preEvents c _
    have h2 : countSnapshots (dispatchActions page c 0 (decisions c).actions).1 = 0 :=
      dispatchActions_count_snapshots page c _ 0
    simp only [countSnapshots] at h1 h2 hrec
    omega

/-- Success form of the loop: when the first terminal cycle is `m` steps away
and inside the budget, the loop succeeds, runs exactly `m + 1` cycles, emits
no event of a later cycle, and dispatches nothing of that cycle past its first
terminal action. -/
theorem runCycles_success (page : Page) (decisions : Nat → Decision) :
    ∀ m n c, m < n → cycleTerminal page (decisions (c + m)) = true →
      (∀ k, k < m → cycleTerminal page (decisions (c + k)) = false) →
      (runCycles page decisions c n).1 = .success
      ∧ countSnapshots (runCycles page decisions c n).2 = m + 1
      ∧ (∀ e ∈ (runCycles page decisions c n).2, e.cycle ≤ c + m)
      ∧ (∀ j a, LoopEvent.dispatch (c + m) j a ∈ (runCycles page decisions c n).2 →
          j ≤ (decisions (c + m)).actions.findIdx fun x => (execute_action page x).1) := by
  intro m
  induction m with
  | zero =>
    intro n c hn hterm _
    simp only [Nat.add_zero] at hterm ⊢
    match n, hn with
    | n0 + 1, _ =>
      rw [runCycles]
      dsimp only
      have hstep : (dispatchActions page c 0 (decisions c).actions).2 = true := by
        rw [dispatchActions_done]
        simpa [cycleTerminal] using hterm
      rw [if_pos (by simp [hstep])]
      refine ⟨rfl, ?_, ?_, ?_⟩
      · simp only [countSnapshots, List.countP_append]
        have h1 := countSnapshots_preEvents c (riskNeedsWait (decisions c).risk)
        have h2 := dispatchActions_count_snapshots page c (decisions c).actions 0
        simp only [countSnapshots] at h1 h2
        omega
      · intro e he
        rw [List.mem_append] at he
        rcases he with he | he
        · rcases preEvents_mem he with rfl | rfl <;> simp [LoopEvent.cycle]
        · obtain ⟨j, a, rfl, -, -⟩ := dispatchActions_events page c _ 0 e he
          simp [LoopEvent.cycle]
      · intro j a hj
        rw [List.mem_append] at hj
        rcases hj with hj | hj
        · rcases preEvents_mem hj with h | h <;> exact absurd h (by simp)
        · obtain ⟨j2, a2, he, -, hbound⟩ := dispatchActions_events page c _ 0 _ hj
          injection he with h1 h2 h3
          omega
  | succ m0 ih =>
    intro n c hn hterm hmin
    match n, hn with
    | n0 + 1, hn =>
      rw [runCycles]
      dsimp only
      have hstep : (dispatchActions page c 0 (decisions c).actions).2 = false := by
        rw [dispatchActions_done]
        have := hmin 0 (Nat.succ_pos m0)
        simpa [cycleTerminal] using this
      rw [if_neg (by simp [hstep])]
      have hterm2 : cycleTerminal page (decisions (c + 1 + m0)) = true := by
        rwa [show c + 1 + m0 = c + (m0 + 1) by omega]
      have hmin2 : ∀ k, k < m0 → cycleTerminal page (decisions (c + 1 + k)) = false := by
        intro k hk
        have := hmin (k + 1) (by omega)
        rwa [show c + (k + 1) = c + 1 + k by omega] at this
      have hrec := ih n0 (c + 1) (by omega) hterm2 hmin2
      have hshift : c + 1 + m0 = c + (m0 + 1) := by omega
      refine ⟨hrec.1, ?_, ?_, ?_⟩
      · simp only [countSnapshots, List.countP_append]
        have h1 := countSnapshots_preEvents c (riskNeedsWait (decisions c).risk)
        have h2 := dispatchActions_count_snapshots page c (decisions c).actions 0
        have h3 := hrec.2.1
        simp only [countSnapshots] at h1 h2 h3
        omega
      · intro e he
        rw [List.mem_append, List.mem_append] at he
        rcases he with (he | he) | he
        · rcases preEvents_mem he with rfl | rfl <;>
            · simp only [LoopEvent.cycle]
              omega
        · obtain ⟨j, a, rfl, -, -⟩ := dispatchActions_events page c _ 0 e he
          simp only [LoopEvent.cycle]
          omega
        · have := hrec.2.2.1 e he
          omega
      · intro j a hj
        rw [List.mem_append, List.mem_append] at hj
        rcases hj with (hj | hj) | hj
        · rcases preEvents_mem hj with h | h <;> exact absurd h (by simp)
        · obtain ⟨j2, a2, he, -, -⟩ := dispatchActions_events page c _ 0 _ hj
          injection he with h1 h2 h3
          omega
        · have := hrec.2.2.2 j a (by rwa [hshift])
          rwa [hshift] at this

/-- C1: whenever the first terminal cycle `m` lies inside the budget, the
loop returns success, performs exactly the cycles up to `m` (no snapshot or
any other event of a later cycle appears) and stops dispatching within cycle
`m` at its first terminal action; and when no cycle of the budget is
terminal, the loop fails with budget exhaustion after exactly `max_cycles`
cycles. -/
theorem loop_terminal_or_budget (page : Page) (decisions : Nat → Decision) (max_cycles : Nat) :
    (∀ m, m < max_cycles → cycleTerminal page (decisions m) = true →
      (∀ k, k < m → cycleTerminal page (decisions k) = false) →
      (execute_llm_actions page decisions max_cycles).1 = .success
      ∧ countSnapshots (execute_llm_actions page decisions max_cycles).2 = m + 1
      ∧ (∀ e ∈ (execute_llm_actions page decisions max_cycles).2, e.cycle ≤ m)
      ∧ (∀ j a, LoopEvent.dispatch m j a ∈ (execute_llm_actions page decisions max_cycles).2 →
          j ≤ (decisions m).actions.findIdx fun x => (execute_action page x).1))
    ∧ ((∀ k, k < max_cycles → cycleTerminal page (decisions k) = false) →
      (execute_llm_actions page decisions max_cycles).1 = .budgetExhausted
      ∧ countSnapshots (execute_llm_actions page decisions max_cycles).2 = max_cycles) := by
  constructor
  · intro m hm hterm hmin
    have h := runCycles_success page decisions m max_cycles 0 hm
      (by simpa using hterm) (by simpa using hmin)
    simpa [execute_llm_actions] using h
  · intro hall
    have h := runCycles_budget page decisions max_cycles 0 (by simpa using hall)
    simpa [execute_llm_actions] using h

/-- A decision sequence whose second cycle carries a terminal `done` action. -/
def decisionsDoneAtOne : Nat → Decision := fun c =>
  if c = 1 then ⟨[⟨some "done", none, none⟩, ⟨some "wait", none, none⟩], "none"⟩
  else ⟨[⟨some "wait", none, none⟩], "none"⟩

/-- Witness for C1: with the terminal decision in cycle 1 of a budget of 5,
the loop succeeds after exactly two cycles. -/
theorem loop_terminal_or_budget_witness :
    (execute_llm_actions pageEmpty decisionsDoneAtOne 5).1 = .success
    ∧ countSnapshots (execute_llm_actions pageEmpty decisionsDoneAtOne 5).2 = 2 := by
  have h := (loop_terminal_or_budget pageEmpty decisionsDoneAtOne 5).1 1
    (by decide) (by decide)
    (by
      intro k hk
      interval_cases k
      decide)
  exact ⟨h.1, h.2.1⟩

/-- Scanning predicate for C2: scanning the trace from the left, the extended
manual-intervention wait of cycle `c` is reached before any dispatch of cycle
`c` and before any snapshot of a later cycle (events of other cycles are
passed over; an exhausted scan is vacuously fine). -/
def waitComesFirst (c : Nat) : List LoopEvent → Bool
  | [] => true
  | .snapshot c2 :: rest => if c < c2 then false else waitComesFirst c rest
  | .riskWait c2 _ _ :: rest => if c2 = c then true else waitComesFirst c rest
  | .dispatch c2 _ _ :: rest => if c2 = c then false else waitComesFirst c rest

/-- Events of earlier cycles are passed over by the scan. -/
theorem waitComesFirst_append_of_lt {c : Nat} {x : List LoopEvent}
    (hx : ∀ e ∈ x, e.cycle < c) (y : List LoopEvent) :
    waitComesFirst c (x ++ y) = waitComesFirst c y := by
  induction x with
  | nil => rfl
  | cons e t ih =>
    have he := hx e (List.mem_cons_self e t)
    have ht : ∀ e2 ∈ t, e2.cycle < c := fun e2 h2 => hx e2 (List.mem_cons_of_mem _ h2)
    cases e with
    | snapshot c2 =>
      simp only [LoopEvent.cycle] at he
      simp only [List.cons_append, waitComesFirst]
      rw [if_neg (by omega)]
      exact ih ht
    | riskWait c2 lo hi =>
      simp only [LoopEvent.cycle] at he
      simp only [List.cons_append, waitComesFirst]
      rw [if_neg (by omega)]
      exact ih ht
    | dispatch c2 j a =>
      simp only [LoopEvent.cycle] at he
      simp only [List.cons_append, waitComesFirst]
      rw [if_neg (by omega)]
      exact ih ht

/-- A trace made only of earlier-cycle events passes the scan. -/
theorem waitComesFirst_all_lt {c : Nat} {x : List LoopEvent}
    (hx : ∀ e ∈ x, e.cycle < c) : waitComesFirst c x = true := by
  have h := waitComesFirst_append_of_lt hx []
  simpa using h

/-- The scan holds on every suffix run of the loop that has not yet passed
cycle `c`. -/
theorem waitFirst_runCycles (page : Page) (decisions : Nat → Decision) (c : Nat)
    (hrisk : riskNeedsWait (decisions c).risk = true) :
    ∀ n c0, c0 ≤ c → waitComesFirst c (runCycles page decisions c0 n).2 = true := by
  intro n
  induction n with
  | zero => intro c0 _; rfl
  | succ n0 ih =>
    intro c0 hc0
    rw [runCycles]
    dsimp only
    by_cases heq : c0 = c
    · subst heq
      rw [preEvents, if_pos hrisk]
      split <;> simp [waitComesFirst]
    · have hlt : c0 < c := by omega
      have hx : ∀ e ∈ preEvents c0 (riskNeedsWait (decisions c0).risk)
          ++ (dispatchActions page c0 0 (decisions c0).actions).1, e.cycle < c := by
        intro e he
        rw [List.mem_append] at he
        rcases he with he | he
        · rcases preEvents_mem he with rfl | rfl <;>
            · simp only [LoopEvent.cycle]
              omega
        · obtain ⟨j, a, rfl, -, -⟩ := dispatchActions_events page c0 _ 0 e he
          simp only [LoopEvent.cycle]
          omega
      split
      · dsimp only
        exact waitComesFirst_all_lt hx
      · dsimp only
        rw [waitComesFirst_append_of_lt hx]
        exact ih (c0 + 1) (by omega)

/-- C2: whenever the decision of cycle `c` carries risk `captcha` or `2fa`
(the wire spelling of the spec's `two_factor`), the 8 to 12 unit extended wait
of cycle `c` appears in the loop trace before any action dispatch of cycle
`c` and before any snapshot of a later cycle — the cycle counter cannot
advance past the risky decision without the wait having been issued. -/
theorem risk_wait_precedes_dispatch (page : Page) (decisions : Nat → Decision)
    (max_cycles c : Nat) (hrisk : riskNeedsWait (decisions c).risk = true) :
    waitComesFirst c (execute_llm_actions page decisions max_cycles).2 = true :=
  waitFirst_runCycles page decisions c hrisk max_cycles 0 (Nat.zero_le c)

/-- Witness for C2 with a captcha-risk decision in every cycle. -/
theorem risk_wait_precedes_dispatch_witness :
    waitComesFirst 0 (execute_llm_actions pageEmpty
      (fun _ => ⟨[⟨some "wait", none, none⟩], "captcha"⟩) 2).2 = true :=
  risk_wait_precedes_dispatch pageEmpty
    (fun _ => ⟨[⟨some "wait", none, none⟩], "captcha"⟩) 2 0 (by decide)

end ListingTool
